import Mathlib

set_option maxRecDepth 8000

/-
Verification development for the P2DFFT annulus-wise polar-FFT pipeline
(p2dfft.cpp) and its frequency-domain feature extractor (pitch_class.cpp,
pitch_class.h).

Modelling conventions.
C doubles that the program tests for NaN (via self-equality) are modelled as
Option values: none is NaN, some x is the finite value x.  Values fed
through transcendental functions (sqrt, atan2) live in Option real; the
doubles the extractor manipulates live in Option rational so that concrete
runs are decidable.  Arrays are total functions
from the index type; a C array write becomes a pointwise functional update.
IEEE comparison semantics are preserved: any comparison involving NaN is
false.
-/

namespace P2DFFT

/-- Negation on NaN-able doubles: the `-1.0 *` factor in the remap
(NaN propagates). -/
def negD (a : Option ℝ) : Option ℝ := Option.map (fun x => -x) a

/-- Magnitude `sqrt(pow(re,2)+pow(im,2))` on NaN-able doubles
(NaN propagates). -/
noncomputable def magD (a b : Option ℝ) : Option ℝ :=
  match a, b with
  | some x, some y => some (Real.sqrt (x ^ 2 + y ^ 2))
  | _, _ => none

/-- Addition on NaN-able doubles (NaN propagates). -/
def addD (a b : Option ℝ) : Option ℝ :=
  match a, b with
  | some x, some y => some (x + y)
  | _, _ => none

/-- The `fft_out` record of pitch_class.h as filled by the remap stage of
p2dfft.cpp: real, imaginary, magnitude and frequency, all NaN-able
doubles. -/
structure RRec where
  real : Option ℝ
  imag : Option ℝ
  abs : Option ℝ
  freq : Option ℝ

/-- Modelled from the spec: `DIM_RAD` of globals.h (globals.h is not under
src/).  The spec fixes the mid-frequency slot at `N/2 + 1 = 1025` and the
in-src remap comment table of p2dfft.cpp maps native bin 0 to slot 1025 and
the wrap bin to slot 2049, so `DIM_RAD = 2048`. -/
def DIM_RAD : ℕ := 2048

/-- A loop that walks an index list and rewrites the buffer slot `slotOf p`
with `w p` applied to the slot's current record, as the remap loops of
p2dfft.cpp do. -/
def genfold {β : Type} (slotOf : ℕ → ℕ) (w : ℕ → β → β) (l : List ℕ)
    (buf : ℕ → β) : ℕ → β :=
  l.foldl (fun bf p => fun t => if t = slotOf p then w p (bf t) else bf t) buf

/-- First remap loop of p2dfft.cpp (lines 1481-1490): native bins
`mode*N + 0 .. mode*N + N/2 - 1` land in physical slots `N/2+1 .. N`,
the imaginary part sign-inverted and the magnitude recomputed. -/
noncomputable def remapLoop1 (out : ℕ → Option ℝ × Option ℝ) (m : ℕ) :
    (ℕ → RRec) → ℕ → RRec :=
  genfold (fun p => p + DIM_RAD / 2 + 1)
    (fun p r =>
      { r with
        real := (out (m * DIM_RAD + p)).1
        imag := negD (out (m * DIM_RAD + p)).2
        abs := magD (out (m * DIM_RAD + p)).1 (out (m * DIM_RAD + p)).2 })
    (List.range (DIM_RAD / 2))

/-- Wrap-point write of p2dfft.cpp (lines 1492-1494): native bin
`mode*N + N/2` lands in physical slot `N + 1`. -/
noncomputable def remapWrap (out : ℕ → Option ℝ × Option ℝ) (m : ℕ)
    (buf : ℕ → RRec) : ℕ → RRec := fun t =>
  if t = DIM_RAD + 1 then
    { buf t with
      real := (out (m * DIM_RAD + DIM_RAD / 2)).1
      imag := negD (out (m * DIM_RAD + DIM_RAD / 2)).2
      abs := magD (out (m * DIM_RAD + DIM_RAD / 2)).1
        (out (m * DIM_RAD + DIM_RAD / 2)).2 }
  else buf t

/-- Legacy alias write of p2dfft.cpp (line 1500): only the magnitude of the
wrap-point bin is copied into physical slot 1. -/
noncomputable def remapAlias (out : ℕ → Option ℝ × Option ℝ) (m : ℕ)
    (buf : ℕ → RRec) : ℕ → RRec := fun t =>
  if t = 1 then
    { buf t with
      abs := magD (out (m * DIM_RAD + DIM_RAD / 2)).1
        (out (m * DIM_RAD + DIM_RAD / 2)).2 }
  else buf t

/-- Second remap loop of p2dfft.cpp (lines 1506-1515): native bins
`mode*N + N/2 + 1 .. mode*N + N - 1` land in physical slots `2 .. N/2`. -/
noncomputable def remapLoop2 (out : ℕ → Option ℝ × Option ℝ) (m : ℕ) :
    (ℕ → RRec) → ℕ → RRec :=
  genfold (fun k => k + 2)
    (fun k r =>
      { r with
        real := (out (m * DIM_RAD + DIM_RAD / 2 + 1 + k)).1
        imag := negD (out (m * DIM_RAD + DIM_RAD / 2 + 1 + k)).2
        abs := magD (out (m * DIM_RAD + DIM_RAD / 2 + 1 + k)).1
          (out (m * DIM_RAD + DIM_RAD / 2 + 1 + k)).2 })
    (List.range (DIM_RAD / 2 - 1))

/-- Full remap of one mode slice (p2dfft.cpp lines 1481-1515), in statement
order: loop 1, wrap-point write, legacy slot-1 alias, loop 2. -/
noncomputable def remap (out : ℕ → Option ℝ × Option ℝ) (m : ℕ)
    (buf : ℕ → RRec) : ℕ → RRec :=
  remapLoop2 out m (remapAlias out m (remapWrap out m (remapLoop1 out m buf)))

/-- Modelled from the spec: `FREQ_START` of globals.h (not under src/); the
in-src comment table states a frequency mapping of -50 to +50. -/
def FREQ_START : ℚ := -50

/-- Modelled from the spec: `FREQ_END` of globals.h (not under src/). -/
def FREQ_END : ℚ := 50

/-- Modelled from the spec: `STEP_P` of globals.h (not under src/).  The
per-file accumulator sizing `(|FREQ_START|+|FREQ_END|)*4+1 = 401` entries
for the 401 in-bounds bins fixes the step to 1/4. -/
def STEP_P : ℚ := 1 / 4

/-- Physical frequency of slot `jm` (p2dfft.cpp line 1526):
`(-1)*STEP_P*DIM_RAD/2 + (jm-1)*STEP_P`. -/
def freqF (jm : ℕ) : ℚ := -STEP_P * (DIM_RAD : ℚ) / 2 + ((jm : ℚ) - 1) * STEP_P

/-- The configured frequency bounds test of p2dfft.cpp line 1527. -/
abbrev inBounds (fs : ℚ) : Prop := FREQ_START ≤ fs ∧ fs ≤ FREQ_END

/-- The high-pass band test of p2dfft.cpp line 1540:
`freq_save < mode*0.25 && freq_save > mode*(-0.25)`. -/
abbrev inBand (m : ℕ) (fs : ℚ) : Prop :=
  fs < (m : ℚ) * (1 / 4) ∧ (m : ℚ) * (-(1 / 4)) < fs

/-- One iteration of the frequency-labelling loop of p2dfft.cpp (lines
1524-1553) on the state (bin buffer, summed-spectrum row, sum index): for an
in-bounds slot, the NaN-guarded accumulation into the summed spectrum, the
frequency label, and the optional high-pass suppression. -/
def labelStep (hp : Bool) (m : ℕ)
    (st : (ℕ → RRec) × (ℕ → Option ℝ) × ℕ) (jm : ℕ) :
    (ℕ → RRec) × (ℕ → Option ℝ) × ℕ :=
  let fs := freqF jm
  if inBounds fs then
    let buf := st.1
    let sums := st.2.1
    let sp := st.2.2
    let sums' := if ((buf jm).abs).isSome then
      (fun k => if k = sp then addD (sums k) ((buf jm).abs) else sums k)
      else sums
    let r1 := { buf jm with freq := some ((fs : ℝ)) }
    let r2 := if hp = true ∧ inBand m fs then
      { r1 with abs := some 0, real := some 0, imag := some 0 } else r1
    (fun t => if t = jm then r2 else buf t, sums', sp + 1)
  else st

/-- The slot indices 1 .. DIM_RAD+1 visited by the labelling loop. -/
def jmList : List ℕ := (List.range (DIM_RAD + 1)).map (fun k => k + 1)

/-- The whole frequency-labelling loop of p2dfft.cpp (lines 1522-1553),
starting from `sum_ptr = 0`. -/
def labelLoop (hp : Bool) (m : ℕ) (buf : ℕ → RRec) (sums : ℕ → Option ℝ) :
    (ℕ → RRec) × (ℕ → Option ℝ) × ℕ :=
  jmList.foldl (labelStep hp m) (buf, sums, 0)

/-- The effect of the labelling loop on a single bin record, as a function
of the slot index alone. -/
def labelBin (hp : Bool) (m : ℕ) (r : RRec) (jm : ℕ) : RRec :=
  let fs := freqF jm
  if inBounds fs then
    let r1 := { r with freq := some ((fs : ℝ)) }
    if hp = true ∧ inBand m fs then
      { r1 with abs := some 0, real := some 0, imag := some 0 } else r1
  else r

/-- The per-file summed-spectrum reset of p2dfft.cpp (lines 993-1001): one
mode row of `fft_sum` with every magnitude set to exact zero. -/
def resetSums : ℕ → Option ℝ := fun _ => some 0

/-- Per-sample value written into the polar-sampled input buffer by the
inclusion-rule chain of p2dfft.cpp (lines 1297-1353), in the code's strict
test order: zero-padding band, bar mask by angle, reverse-mode radius
cutoff, fixed-width-annulus cutoff against `log_lo`/`log_hi`, standard
radius cutoff, bright-core mask by intensity, else the pixel value.
`log_lo` and `log_hi` are declared in p2dfft.cpp (lines 1245-1246) but never
assigned anywhere, so here they are free inputs standing for whatever the
uninitialized locals happen to hold. -/
def sampleWrite (zero mask mask_line reverse : Bool) (fixed : ℕ)
    (count_theta : ℕ)
    (lnr log_bar log_rad log_itrad log_lo log_hi matval ctr_val : ℚ) : ℚ :=
  if zero = true ∧ (count_theta < 4 ∨ 1021 < count_theta) then 0
  else if mask_line = true ∧ lnr ≤ log_bar then 0
  else if reverse = true ∧ (log_rad < lnr ∨ log_itrad < lnr) then 0
  else if fixed ≠ 0 ∧ (log_hi < lnr ∨ lnr < log_lo) then 0
  else if reverse = false ∧ fixed = 0 ∧ (log_itrad < lnr ∨ lnr < log_rad) then 0
  else if mask = true ∧ ctr_val ≤ matval then 0
  else matval

/-- Return code `PITCH_RET_OK` of pitch_class.h. -/
def PITCH_RET_OK : ℤ := 1

/-- Return code `PITCH_RET_NAN` of pitch_class.h. -/
def PITCH_RET_NAN : ℤ := 0

/-- Return code `PITCH_RET_ERR` of pitch_class.h. -/
def PITCH_RET_ERR : ℤ := -1

/-- `LO_INDEX` of pitch_class.cpp. -/
def LO_INDEX : ℤ := 824

/-- `HI_INDEX` of pitch_class.cpp. -/
def HI_INDEX : ℤ := 1226

/-- The `fft_out` record as seen by the extractor, over rationals with NaN
as `none`.  The frequency label is assigned only to in-bounds slots
(p2dfft.cpp line 1537), so the window edge slots 824 and 1226 keep
indeterminate memory from the reused stack buffer; real, imaginary and
frequency are therefore NaN-able just like the magnitude. -/
structure FRecQ where
  real : Option ℚ
  imag : Option ℚ
  abs : Option ℚ
  freq : Option ℚ

/-- The `result_pa` record of pitch_class.h.  The angle statistics and the
SNR are real-valued; every statistic the caller can set to NaN is an
Option. -/
structure ResultPa where
  index : ℤ
  freq : Option ℚ
  amp : Option ℚ
  avg_amp : Option ℚ
  pa : Option ℝ
  phase : Option ℝ
  snr : Option ℝ
  fwhm : Option ℚ

/-- The scan window `LO_INDEX .. HI_INDEX` of pitch_class.cpp. -/
def winList : List ℤ := (List.range 403).map (fun k : ℕ => 824 + (k : ℤ))

/-- One iteration of the maximum scan of `pitch_phase` (pitch_class.cpp
lines 176-192) on the state (nan flag, max index, max amplitude): any
non-NaN magnitude clears the nan flag; a magnitude above the running
maximum at a slot other than 1025 becomes the new maximum. -/
def scanStep (fft : ℤ → FRecQ) (st : Bool × ℤ × ℚ) (i : ℤ) : Bool × ℤ × ℚ :=
  let nan := if ((fft i).abs).isSome then false else st.1
  match (fft i).abs with
  | some v => if st.2.2 < v ∧ i ≠ 1025 then (nan, i, v) else (nan, st.2.1, st.2.2)
  | none => (nan, st.2.1, st.2.2)

/-- The whole maximum scan of `pitch_phase`, from `nan = 1`, `index = -1`,
`a_max = -255.0`. -/
def pitchScan (fft : ℤ → FRecQ) : Bool × ℤ × ℚ :=
  winList.foldl (scanStep fft) (true, -1, -255)

/-- Modelled from the spec: `GR_RAD` of globals.h (not under src/), the
degrees-per-radian conversion factor (the spec's angular_unit_scale);
`atan2(...)*(1.0/GR_RAD)` converts radians to degrees. -/
noncomputable def GR_RAD : ℝ := Real.pi / 180

/-- C `atan2(y, x)`: the argument of the complex number `x + y*i`. -/
noncomputable def atan2 (y x : ℝ) : ℝ := Complex.arg ⟨x, y⟩

/-- Pitch angle of pitch_class.cpp lines 213-215:
`atan2(mode, freq)/GR_RAD`, minus 180 when its magnitude exceeds 90. -/
noncomputable def paOf (m : ℕ) (f : ℚ) : ℝ :=
  let p := atan2 (m : ℝ) ((f : ℝ)) * (1 / GR_RAD)
  if 90 < |p| then p - 180 else p

/-- Phase angle of pitch_class.cpp line 217. -/
noncomputable def phaseOf (m : ℕ) (re im : ℚ) : ℝ :=
  atan2 ((im : ℝ)) ((re : ℝ)) * (1 / GR_RAD) / (m : ℝ)

/-- Phase angle on NaN-able components: NaN when either the real or the
imaginary part is NaN. -/
noncomputable def phaseD (m : ℕ) (re im : Option ℚ) : Option ℝ :=
  match re, im with
  | some r, some i => some (phaseOf m r i)
  | _, _ => none

/-- `pitch::pitch_phase` of pitch_class.cpp (lines 161-219).  Note the
no-maximum branch (lines 198-203) literally executes `return(0)` after
setting `pitch_errno = PITCH_ERR_MAX_AMP`, so its return value equals
`PITCH_RET_NAN`, not `PITCH_RET_ERR`. -/
noncomputable def pitch_phase (fft : ℤ → FRecQ) (mode : ℕ) (res : ResultPa) :
    ℤ × ResultPa :=
  let s := pitchScan fft
  if s.1 = true then (PITCH_RET_NAN, res)
  else if s.2.1 < 0 then (0, res)
  else
    (PITCH_RET_OK,
      { res with
        amp := (fft s.2.1).abs
        freq := (fft s.2.1).freq
        index := s.2.1
        pa := Option.map (paOf mode) ((fft s.2.1).freq)
        phase := phaseD mode ((fft s.2.1).real) ((fft s.2.1).imag) })

/-- The valid window magnitudes used by `pitch::snr` (pitch_class.cpp lines
248-255): every non-NaN magnitude in the window at a slot other than
1025, in scan order. -/
def validVals (fft : ℤ → FRecQ) : List ℚ :=
  winList.filterMap (fun i => if i = 1025 then none else (fft i).abs)

/-- The noise-floor mean `L = avg/vals` of `pitch::snr`. -/
def snrMean (fft : ℤ → FRecQ) : ℚ :=
  (validVals fft).sum / ((validVals fft).length : ℚ)

/-- The population standard deviation `sigma = pow(avg/vals, 0.5)` of
`pitch::snr` (pitch_class.cpp lines 272-277). -/
noncomputable def snrSigma (fft : ℤ → FRecQ) : ℝ :=
  Real.sqrt
    ((((validVals fft).map (fun x => (x - snrMean fft) ^ 2)).sum /
      ((validVals fft).length : ℚ) : ℚ) : ℝ)

/-- `pitch::snr` of pitch_class.cpp (lines 235-291): error when no valid
bin exists (`vals < 0.5`), the mean stored in `avg_amp`, error when sigma
is at or below 1e-10 without storing an SNR, otherwise
`snr = (amp - L)/sigma` with the NaN outcome when that value is NaN. -/
noncomputable def snr (fft : ℤ → FRecQ) (res : ResultPa) : ℤ × ResultPa :=
  if (((validVals fft).length : ℚ)) < 1 / 2 then (PITCH_RET_ERR, res)
  else
    let r1 := { res with avg_amp := some (snrMean fft) }
    if snrSigma fft ≤ 1e-10 then (PITCH_RET_ERR, r1)
    else
      let sv : Option ℝ :=
        res.amp.map (fun a => ((a : ℝ) - ((snrMean fft : ℝ))) / snrSigma fft)
      (if sv.isSome then PITCH_RET_OK else PITCH_RET_NAN, { r1 with snr := sv })

/-- IEEE `<` on NaN-able doubles: false whenever either side is NaN. -/
def ltD (a b : Option ℚ) : Bool :=
  match a, b with
  | some x, some y => decide (x < y)
  | _, _ => false

/-- The half-maximum threshold `amp - (amp - avg_amp)/2` of `pitch::fwhm`
(pitch_class.cpp line 337), NaN-propagating. -/
def limitOf (amp avg : Option ℚ) : Option ℚ :=
  match amp, avg with
  | some a, some v => some (a - (a - v) / 2)
  | _, _ => none

/-- A slot at which the outward FWHM scan stops: not the mid-frequency slot
1025, with magnitude strictly below the threshold. -/
abbrev fwhmCross (fft : ℤ → FRecQ) (limit : Option ℚ) (i : ℤ) : Prop :=
  i ≠ 1025 ∧ ltD ((fft i).abs) limit = true

/-- The rising-index scan of `pitch::fwhm` (pitch_class.cpp lines 338-352):
walk up from `i`, skip slot 1025, stop at the first magnitude below the
threshold and report the preceding slot; report 0 when the window is
exhausted.  The fuel only bounds the recursion and exceeds the window
length at every call site. -/
def scanUp (fft : ℤ → FRecQ) (limit : Option ℚ) : ℕ → ℤ → ℤ
  | 0, _ => 0
  | fuel + 1, i =>
    if 1226 < i then 0
    else if i ≠ 1025 ∧ ltD ((fft i).abs) limit = true then i - 1
    else scanUp fft limit fuel (i + 1)

/-- The falling-index scan of `pitch::fwhm` (pitch_class.cpp lines
354-368). -/
def scanDown (fft : ℤ → FRecQ) (limit : Option ℚ) : ℕ → ℤ → ℤ
  | 0, _ => 0
  | fuel + 1, i =>
    if i < 824 then 0
    else if i ≠ 1025 ∧ ltD ((fft i).abs) limit = true then i + 1
    else scanDown fft limit fuel (i - 1)

/-- `pitch::fwhm` of pitch_class.cpp (lines 312-382): error when the stored
maximum index is outside the window; outward scans in both directions;
error when either scan exhausts the window (sentinel 0); otherwise the
count `hi - lo + 1` is stored. -/
def fwhm (fft : ℤ → FRecQ) (res : ResultPa) : ℤ × ResultPa :=
  if res.index < LO_INDEX ∨ HI_INDEX < res.index then (PITCH_RET_ERR, res)
  else
    let limit := limitOf res.amp res.avg_amp
    let hi := scanUp fft limit 500 (res.index + 1)
    let lo := scanDown fft limit 500 (res.index - 1)
    if hi = 0 ∨ lo = 0 then (PITCH_RET_ERR, res)
    else
      let fw : Option ℚ := some (((hi - lo + 1 : ℤ) : ℚ))
      (if fw.isSome then PITCH_RET_OK else PITCH_RET_NAN,
        { res with fwhm := fw })

/-- The all-NaN result record written by the caller's recovery branch
(p2dfft.cpp lines 1586-1593). -/
def nanResult : ResultPa := ⟨0, none, none, none, none, none, none, none⟩

/-- The per-(mode,radius) extractor dispatch of p2dfft.cpp (lines
1567-1614): `pitch_phase`, then on NaN or error the all-NaN recovery,
otherwise `snr` then `fwhm`, each with its own error recovery.  The two
booleans record whether `snr` and `fwhm` were invoked. -/
noncomputable def processRadius (fft : ℤ → FRecQ) (mode : ℕ)
    (res0 : ResultPa) : ResultPa × Bool × Bool :=
  let r := pitch_phase fft mode res0
  if r.1 = PITCH_RET_ERR ∨ r.1 = PITCH_RET_NAN then (nanResult, false, false)
  else
    let s := snr fft r.2
    if s.1 = PITCH_RET_ERR then
      ({ s.2 with avg_amp := none, snr := none, fwhm := none }, true, false)
    else
      let f := fwhm fft s.2
      if f.1 = PITCH_RET_ERR then ({ f.2 with fwhm := none }, true, true)
      else (f.2, true, true)

/-- An empty result record used as the pre-call state in concrete runs. -/
def res0 : ResultPa := ⟨0, none, none, none, none, none, none, none⟩

/-- Concrete window for claim C1: the only non-NaN magnitude sits at the
excluded mid-frequency slot 1025. -/
def c1fft : ℤ → FRecQ :=
  fun i => if i = 1025 then ⟨some 0, some 0, some 1, some 0⟩
    else ⟨none, none, none, none⟩

/-- Concrete window for the claim C4 counterexample: the only non-NaN
magnitude sits at the excluded mid-frequency slot 1025. -/
def c4fft : ℤ → FRecQ :=
  fun i => if i = 1025 then ⟨some 0, some 0, some 2, some 0⟩
    else ⟨none, none, none, none⟩

/-- Concrete window for the C4 witness: one valid bin away from slot
1025. -/
def c4good : ℤ → FRecQ :=
  fun i => if i = 900 then ⟨some 0, some 0, some 3, some 2⟩
    else ⟨none, none, none, none⟩

/-- Concrete all-NaN window for the C5 witness. -/
def c5fft : ℤ → FRecQ := fun _ => ⟨none, none, none, none⟩

/-- Concrete window for the C7 witness: valid magnitudes 0 and 2, hence
mean 1 and sigma 1. -/
def c7fft : ℤ → FRecQ :=
  fun i => if i = 900 then ⟨none, none, some 0, none⟩
    else if i = 901 then ⟨none, none, some 2, none⟩
    else ⟨none, none, none, none⟩

/-- Result record for the C7 witness. -/
def c7res : ResultPa := ⟨900, none, some 2, none, none, none, none, none⟩

/-- Concrete window for the C6 witness: a peak of magnitude 10 at slot
1000 falling to 1 two slots away on each side. -/
def c6fft : ℤ → FRecQ :=
  fun i =>
    if i = 1000 then ⟨none, none, some 10, none⟩
    else if i = 999 ∨ i = 1001 then ⟨none, none, some 6, none⟩
    else if i = 998 ∨ i = 1002 then ⟨none, none, some 1, none⟩
    else ⟨none, none, none, none⟩

/-- Result record for the C6 witness: maximum 10 at slot 1000, noise floor
2, hence threshold 6. -/
def c6res : ResultPa := ⟨1000, none, some 10, some 2, none, none, none, none⟩

/-- Concrete transform output for the remap witnesses. -/
def outW : ℕ → Option ℝ × Option ℝ := fun n => (some ((n : ℝ)), some 1)

/-- Concrete pre-remap buffer for the remap witnesses. -/
def bufW : ℕ → RRec := fun _ => ⟨some 7, some 8, some 9, some 10⟩

theorem addD_isSome {a b : Option ℝ} (ha : a.isSome) (hb : b.isSome) :
    (addD a b).isSome := by
  cases a with
  | none => simp [Option.isSome] at ha
  | some x =>
    cases b with
    | none => simp [Option.isSome] at hb
    | some y => rfl

theorem genfold_not_mem {β : Type} (slotOf : ℕ → ℕ) (w : ℕ → β → β) :
    ∀ (l : List ℕ) (buf : ℕ → β) (s : ℕ), (∀ p ∈ l, slotOf p ≠ s) →
      genfold slotOf w l buf s = buf s := by
  intro l
  induction l with
  | nil => intro buf s _; rfl
  | cons a t ih =>
    intro buf s h
    have hstep : genfold slotOf w (a :: t) buf =
        genfold slotOf w t
          (fun u => if u = slotOf a then w a (buf u) else buf u) := rfl
    rw [hstep, ih _ s (fun p hp => h p (List.mem_cons_of_mem a hp))]
    have ha : slotOf a ≠ s := h a (List.mem_cons_self a t)
    show (if s = slotOf a then w a (buf s) else buf s) = buf s
    exact if_neg (Ne.symm ha)

theorem genfold_mem {β : Type} (slotOf : ℕ → ℕ) (w : ℕ → β → β) :
    ∀ (l : List ℕ) (buf : ℕ → β) (p0 : ℕ), p0 ∈ l → l.Nodup →
      (∀ p ∈ l, slotOf p = slotOf p0 → p = p0) →
      genfold slotOf w l buf (slotOf p0) = w p0 (buf (slotOf p0)) := by
  intro l
  induction l with
  | nil => intro buf p0 hmem; exact absurd hmem (List.not_mem_nil p0)
  | cons a t ih =>
    intro buf p0 hmem hnd huniq
    have hstep : genfold slotOf w (a :: t) buf =
        genfold slotOf w t
          (fun u => if u = slotOf a then w a (buf u) else buf u) := rfl
    rcases List.mem_cons.mp hmem with heq | htail
    · subst heq
      have hnotin : p0 ∉ t := (List.nodup_cons.mp hnd).1
      have hnone : ∀ p ∈ t, slotOf p ≠ slotOf p0 := by
        intro p hp hcontra
        exact hnotin ((huniq p (List.mem_cons_of_mem p0 hp) hcontra) ▸ hp)
      rw [hstep, genfold_not_mem _ _ _ _ _ hnone]
      show (if slotOf p0 = slotOf p0 then w p0 (buf (slotOf p0))
        else buf (slotOf p0)) = w p0 (buf (slotOf p0))
      exact if_pos rfl
    · have hne : slotOf a ≠ slotOf p0 := by
        intro hcontra
        have : a = p0 := huniq a (List.mem_cons_self a t) hcontra
        exact (List.nodup_cons.mp hnd).1 (this ▸ htail)
      rw [hstep, ih _ p0 htail (List.nodup_cons.mp hnd).2
        (fun p hp h => huniq p (List.mem_cons_of_mem a hp) h)]
      show w p0 (if slotOf p0 = slotOf a then w a (buf (slotOf p0))
        else buf (slotOf p0)) = w p0 (buf (slotOf p0))
      rw [if_neg (fun hc => hne hc.symm)]

theorem remapLoop1_mem (out : ℕ → Option ℝ × Option ℝ) (m : ℕ)
    (buf : ℕ → RRec) (b : ℕ) (hb : b < DIM_RAD / 2) :
    remapLoop1 out m buf (b + DIM_RAD / 2 + 1) =
      { buf (b + DIM_RAD / 2 + 1) with
        real := (out (m * DIM_RAD + b)).1
        imag := negD (out (m * DIM_RAD + b)).2
        abs := magD (out (m * DIM_RAD + b)).1 (out (m * DIM_RAD + b)).2 } :=
  genfold_mem _ _ _ buf b (List.mem_range.mpr hb) (List.nodup_range _)
    (fun p hp h => by omega)

theorem remapLoop1_not_mem (out : ℕ → Option ℝ × Option ℝ) (m : ℕ)
    (buf : ℕ → RRec) (s : ℕ) (hs : s < DIM_RAD / 2 + 1 ∨ DIM_RAD < s) :
    remapLoop1 out m buf s = buf s :=
  genfold_not_mem _ _ _ buf s (fun p hp => by
    have hp' := List.mem_range.mp hp
    have hD : DIM_RAD = 2048 := rfl
    omega)

theorem remapLoop2_mem (out : ℕ → Option ℝ × Option ℝ) (m : ℕ)
    (buf : ℕ → RRec) (k : ℕ) (hk : k < DIM_RAD / 2 - 1) :
    remapLoop2 out m buf (k + 2) =
      { buf (k + 2) with
        real := (out (m * DIM_RAD + DIM_RAD / 2 + 1 + k)).1
        imag := negD (out (m * DIM_RAD + DIM_RAD / 2 + 1 + k)).2
        abs := magD (out (m * DIM_RAD + DIM_RAD / 2 + 1 + k)).1
          (out (m * DIM_RAD + DIM_RAD / 2 + 1 + k)).2 } :=
  genfold_mem _ _ _ buf k (List.mem_range.mpr hk) (List.nodup_range _)
    (fun p hp h => by omega)

theorem remapLoop2_not_mem (out : ℕ → Option ℝ × Option ℝ) (m : ℕ)
    (buf : ℕ → RRec) (s : ℕ) (hs : s < 2 ∨ DIM_RAD / 2 < s) :
    remapLoop2 out m buf s = buf s :=
  genfold_not_mem _ _ _ buf s (fun p hp => by
    have hp' := List.mem_range.mp hp
    have hD : DIM_RAD = 2048 := rfl
    omega)

theorem remapWrap_at (out : ℕ → Option ℝ × Option ℝ) (m : ℕ)
    (buf : ℕ → RRec) :
    remapWrap out m buf (DIM_RAD + 1) =
      { buf (DIM_RAD + 1) with
        real := (out (m * DIM_RAD + DIM_RAD / 2)).1
        imag := negD (out (m * DIM_RAD + DIM_RAD / 2)).2
        abs := magD (out (m * DIM_RAD + DIM_RAD / 2)).1
          (out (m * DIM_RAD + DIM_RAD / 2)).2 } := by
  show (if DIM_RAD + 1 = DIM_RAD + 1 then _ else _) = _
  rw [if_pos rfl]

theorem remapWrap_ne (out : ℕ → Option ℝ × Option ℝ) (m : ℕ)
    (buf : ℕ → RRec) (s : ℕ) (hs : s ≠ DIM_RAD + 1) :
    remapWrap out m buf s = buf s := by
  show (if s = DIM_RAD + 1 then _ else _) = _
  rw [if_neg hs]

theorem remapAlias_at (out : ℕ → Option ℝ × Option ℝ) (m : ℕ)
    (buf : ℕ → RRec) :
    remapAlias out m buf 1 =
      { buf 1 with
        abs := magD (out (m * DIM_RAD + DIM_RAD / 2)).1
          (out (m * DIM_RAD + DIM_RAD / 2)).2 } := by
  show (if 1 = 1 then _ else _) = _
  rw [if_pos rfl]

theorem remapAlias_ne (out : ℕ → Option ℝ × Option ℝ) (m : ℕ)
    (buf : ℕ → RRec) (s : ℕ) (hs : s ≠ 1) :
    remapAlias out m buf s = buf s := by
  show (if s = 1 then _ else _) = _
  rw [if_neg hs]

theorem remap_get_hi (out : ℕ → Option ℝ × Option ℝ) (m : ℕ)
    (buf : ℕ → RRec) (b : ℕ) (hb : b < DIM_RAD / 2) :
    remap out m buf (b + DIM_RAD / 2 + 1) =
      { buf (b + DIM_RAD / 2 + 1) with
        real := (out (m * DIM_RAD + b)).1
        imag := negD (out (m * DIM_RAD + b)).2
        abs := magD (out (m * DIM_RAD + b)).1 (out (m * DIM_RAD + b)).2 } := by
  have hD : DIM_RAD = 2048 := rfl
  show remapLoop2 out m (remapAlias out m (remapWrap out m
    (remapLoop1 out m buf))) (b + DIM_RAD / 2 + 1) = _
  rw [remapLoop2_not_mem _ _ _ _ (by omega),
    remapAlias_ne _ _ _ _ (by omega),
    remapWrap_ne _ _ _ _ (by omega),
    remapLoop1_mem _ _ _ b hb]

theorem remap_get_wrap (out : ℕ → Option ℝ × Option ℝ) (m : ℕ)
    (buf : ℕ → RRec) :
    remap out m buf (DIM_RAD + 1) =
      { buf (DIM_RAD + 1) with
        real := (out (m * DIM_RAD + DIM_RAD / 2)).1
        imag := negD (out (m * DIM_RAD + DIM_RAD / 2)).2
        abs := magD (out (m * DIM_RAD + DIM_RAD / 2)).1
          (out (m * DIM_RAD + DIM_RAD / 2)).2 } := by
  have hD : DIM_RAD = 2048 := rfl
  show remapLoop2 out m (remapAlias out m (remapWrap out m
    (remapLoop1 out m buf))) (DIM_RAD + 1) = _
  rw [remapLoop2_not_mem _ _ _ _ (by omega),
    remapAlias_ne _ _ _ _ (by omega), remapWrap_at,
    remapLoop1_not_mem _ _ _ _ (by omega)]

theorem remap_get_one (out : ℕ → Option ℝ × Option ℝ) (m : ℕ)
    (buf : ℕ → RRec) :
    remap out m buf 1 =
      { buf 1 with
        abs := magD (out (m * DIM_RAD + DIM_RAD / 2)).1
          (out (m * DIM_RAD + DIM_RAD / 2)).2 } := by
  have hD : DIM_RAD = 2048 := rfl
  show remapLoop2 out m (remapAlias out m (remapWrap out m
    (remapLoop1 out m buf))) 1 = _
  rw [remapLoop2_not_mem _ _ _ _ (by omega), remapAlias_at,
    remapWrap_ne _ _ _ _ (by omega),
    remapLoop1_not_mem _ _ _ _ (by omega)]

theorem remap_get_lo (out : ℕ → Option ℝ × Option ℝ) (m : ℕ)
    (buf : ℕ → RRec) (k : ℕ) (hk : k < DIM_RAD / 2 - 1) :
    remap out m buf (k + 2) =
      { buf (k + 2) with
        real := (out (m * DIM_RAD + DIM_RAD / 2 + 1 + k)).1
        imag := negD (out (m * DIM_RAD + DIM_RAD / 2 + 1 + k)).2
        abs := magD (out (m * DIM_RAD + DIM_RAD / 2 + 1 + k)).1
          (out (m * DIM_RAD + DIM_RAD / 2 + 1 + k)).2 } := by
  have hD : DIM_RAD = 2048 := rfl
  show remapLoop2 out m (remapAlias out m (remapWrap out m
    (remapLoop1 out m buf))) (k + 2) = _
  rw [remapLoop2_mem _ _ _ k hk,
    remapAlias_ne _ _ _ _ (by omega),
    remapWrap_ne _ _ _ _ (by omega),
    remapLoop1_not_mem _ _ _ _ (by omega)]

theorem remap_get_outside (out : ℕ → Option ℝ × Option ℝ) (m : ℕ)
    (buf : ℕ → RRec) (s : ℕ) (hs : s = 0 ∨ DIM_RAD + 1 < s) :
    remap out m buf s = buf s := by
  have hD : DIM_RAD = 2048 := rfl
  show remapLoop2 out m (remapAlias out m (remapWrap out m
    (remapLoop1 out m buf))) s = _
  rw [remapLoop2_not_mem _ _ _ _ (by omega),
    remapAlias_ne _ _ _ _ (by omega),
    remapWrap_ne _ _ _ _ (by omega),
    remapLoop1_not_mem _ _ _ _ (by omega)]

/-- C3: for every mode and transform output, the remap writes the mode's
slice (starting at `mode*N` in the native output, `N = DIM_RAD`) so that
native bin 0 lands in the physical mid-frequency slot `N/2+1`; bins
`1..N/2-1` land in the ascending slots following the mid slot; the wrap
bin `N/2` lands in slot `N+1` and additionally aliases its magnitude into
physical slot 1, the slot whose frequency under the labelling formula is
the most negative of the axis; bins `N/2+1..N-1` land in ascending slots
`2..N/2`; and every imaginary component written is the negation of the
native output's imaginary part. -/
theorem remap_layout (out : ℕ → Option ℝ × Option ℝ) (m : ℕ)
    (buf : ℕ → RRec) :
    (remap out m buf (DIM_RAD / 2 + 1) =
      { buf (DIM_RAD / 2 + 1) with
        real := (out (m * DIM_RAD)).1
        imag := negD (out (m * DIM_RAD)).2
        abs := magD (out (m * DIM_RAD)).1 (out (m * DIM_RAD)).2 }) ∧
    (∀ b : ℕ, 1 ≤ b → b < DIM_RAD / 2 →
      remap out m buf (b + DIM_RAD / 2 + 1) =
        { buf (b + DIM_RAD / 2 + 1) with
          real := (out (m * DIM_RAD + b)).1
          imag := negD (out (m * DIM_RAD + b)).2
          abs := magD (out (m * DIM_RAD + b)).1 (out (m * DIM_RAD + b)).2 }) ∧
    (remap out m buf (DIM_RAD + 1) =
      { buf (DIM_RAD + 1) with
        real := (out (m * DIM_RAD + DIM_RAD / 2)).1
        imag := negD (out (m * DIM_RAD + DIM_RAD / 2)).2
        abs := magD (out (m * DIM_RAD + DIM_RAD / 2)).1
          (out (m * DIM_RAD + DIM_RAD / 2)).2 }) ∧
    ((remap out m buf 1).abs = magD (out (m * DIM_RAD + DIM_RAD / 2)).1
      (out (m * DIM_RAD + DIM_RAD / 2)).2) ∧
    (∀ jm : ℕ, 1 ≤ jm → jm ≤ DIM_RAD + 1 → freqF 1 ≤ freqF jm) ∧
    (∀ b : ℕ, DIM_RAD / 2 + 1 ≤ b → b ≤ DIM_RAD - 1 →
      remap out m buf (b - DIM_RAD / 2 + 1) =
        { buf (b - DIM_RAD / 2 + 1) with
          real := (out (m * DIM_RAD + b)).1
          imag := negD (out (m * DIM_RAD + b)).2
          abs := magD (out (m * DIM_RAD + b)).1 (out (m * DIM_RAD + b)).2 }) := by
  have hD : DIM_RAD = 2048 := rfl
  refine ⟨?_, ?_, remap_get_wrap out m buf, ?_, ?_, ?_⟩
  · have h0 := remap_get_hi out m buf 0 (by omega)
    have he : (0 : ℕ) + DIM_RAD / 2 + 1 = DIM_RAD / 2 + 1 := by omega
    rw [he] at h0
    simpa using h0
  · intro b _ hb
    exact remap_get_hi out m buf b hb
  · rw [remap_get_one out m buf]
  · intro jm h1 _
    have hj : (1 : ℚ) ≤ (jm : ℚ) := by exact_mod_cast h1
    unfold freqF STEP_P
    have : ((1 : ℕ) : ℚ) = 1 := by norm_num
    rw [this]
    linarith
  · intro b hb1 hb2
    have hk : b - (DIM_RAD / 2 + 1) < DIM_RAD / 2 - 1 := by omega
    have h := remap_get_lo out m buf (b - (DIM_RAD / 2 + 1)) hk
    have he1 : b - (DIM_RAD / 2 + 1) + 2 = b - DIM_RAD / 2 + 1 := by omega
    have he2 : m * DIM_RAD + DIM_RAD / 2 + 1 + (b - (DIM_RAD / 2 + 1)) =
        m * DIM_RAD + b := by omega
    rw [he1, he2] at h
    exact h

/-- C3 witness: the remap layout at concrete inputs. -/
theorem remap_layout_witness :
    (remap outW 0 bufW (5 + DIM_RAD / 2 + 1) =
      { bufW (5 + DIM_RAD / 2 + 1) with
        real := (outW (0 * DIM_RAD + 5)).1
        imag := negD (outW (0 * DIM_RAD + 5)).2
        abs := magD (outW (0 * DIM_RAD + 5)).1 (outW (0 * DIM_RAD + 5)).2 }) ∧
    (freqF 1 ≤ freqF 7) ∧
    (remap outW 0 bufW (1500 - DIM_RAD / 2 + 1) =
      { bufW (1500 - DIM_RAD / 2 + 1) with
        real := (outW (0 * DIM_RAD + 1500)).1
        imag := negD (outW (0 * DIM_RAD + 1500)).2
        abs := magD (outW (0 * DIM_RAD + 1500)).1
          (outW (0 * DIM_RAD + 1500)).2 }) :=
  ⟨(remap_layout outW 0 bufW).2.1 5 (by decide) (by decide),
   (remap_layout outW 0 bufW).2.2.2.2.1 7 (by decide) (by decide),
   (remap_layout outW 0 bufW).2.2.2.2.2 1500 (by decide) (by decide)⟩

/-- C9: the remap writes real and imaginary components only into physical
slots 2 through `DIM_RAD+1`; slot 1 receives only the wrap-point bin's
magnitude, so its real and imaginary fields keep whatever the reused buffer
held before; slots outside `1..DIM_RAD+1` are untouched entirely. -/
theorem remap_slot_one_stale (out : ℕ → Option ℝ × Option ℝ) (m : ℕ)
    (buf : ℕ → RRec) :
    ((remap out m buf 1).real = (buf 1).real ∧
     (remap out m buf 1).imag = (buf 1).imag ∧
     (remap out m buf 1).freq = (buf 1).freq ∧
     (remap out m buf 1).abs = magD (out (m * DIM_RAD + DIM_RAD / 2)).1
       (out (m * DIM_RAD + DIM_RAD / 2)).2) ∧
    (∀ s : ℕ, s = 0 ∨ DIM_RAD + 1 < s → remap out m buf s = buf s) := by
  refine ⟨?_, fun s hs => remap_get_outside out m buf s hs⟩
  rw [remap_get_one out m buf]
  exact ⟨rfl, rfl, rfl, rfl⟩

/-- C9 witness: slot 1 and an out-of-range slot at concrete inputs. -/
theorem remap_slot_one_stale_witness :
    (remap outW 3 bufW 1).real = (bufW 1).real ∧
    remap outW 3 bufW 3000 = bufW 3000 :=
  ⟨(remap_slot_one_stale outW 3 bufW).1.1,
   (remap_slot_one_stale outW 3 bufW).2 3000 (Or.inr (by decide))⟩

theorem labelLoop_eq (hp : Bool) (m : ℕ) (buf : ℕ → RRec)
    (sums : ℕ → Option ℝ) :
    labelLoop hp m buf sums = jmList.foldl (labelStep hp m) (buf, sums, 0) :=
  rfl

theorem mem_jmList {jm : ℕ} : jm ∈ jmList ↔ 1 ≤ jm ∧ jm ≤ DIM_RAD + 1 := by
  simp only [jmList, List.mem_map, List.mem_range]
  constructor
  · rintro ⟨a, ha, rfl⟩; omega
  · intro h; exact ⟨jm - 1, by omega, by omega⟩

theorem jmList_nodup : jmList.Nodup :=
  List.Nodup.map (fun a b h => by omega) (List.nodup_range _)

theorem labelFold_buf_not_mem (hp : Bool) (m : ℕ) :
    ∀ (l : List ℕ) (st : (ℕ → RRec) × (ℕ → Option ℝ) × ℕ) (jm0 : ℕ),
      (∀ jm ∈ l, jm ≠ jm0) →
      ((l.foldl (labelStep hp m) st).1) jm0 = st.1 jm0 := by
  intro l
  induction l with
  | nil => intro st jm0 _; rfl
  | cons a t ih =>
    intro st jm0 h
    rw [List.foldl_cons,
      ih _ jm0 (fun jm hm => h jm (List.mem_cons_of_mem a hm))]
    have hne : jm0 ≠ a := fun hc => (h a (List.mem_cons_self a t)) hc.symm
    unfold labelStep
    by_cases hb : inBounds (freqF a)
    · simp only [if_pos hb]
      exact if_neg hne
    · simp only [if_neg hb]

theorem labelFold_buf_mem (hp : Bool) (m : ℕ) :
    ∀ (l : List ℕ) (st : (ℕ → RRec) × (ℕ → Option ℝ) × ℕ) (jm0 : ℕ),
      jm0 ∈ l → l.Nodup →
      ((l.foldl (labelStep hp m) st).1) jm0 = labelBin hp m (st.1 jm0) jm0 := by
  intro l
  induction l with
  | nil => intro st jm0 hmem; exact absurd hmem (List.not_mem_nil jm0)
  | cons a t ih =>
    intro st jm0 hmem hnd
    rw [List.foldl_cons]
    rcases List.mem_cons.mp hmem with heq | htail
    · subst heq
      have hnin : jm0 ∉ t := (List.nodup_cons.mp hnd).1
      rw [labelFold_buf_not_mem hp m t _ jm0 (fun jm hm hc => hnin (hc ▸ hm))]
      unfold labelStep labelBin
      by_cases hb : inBounds (freqF jm0)
      · simp only [if_pos hb, if_pos rfl, if_true]
      · simp only [if_neg hb]
    · have hne : jm0 ≠ a := by
        intro hc
        exact (List.nodup_cons.mp hnd).1 (hc ▸ htail)
      rw [ih _ jm0 htail (List.nodup_cons.mp hnd).2]
      have hkeep : (labelStep hp m st a).1 jm0 = st.1 jm0 := by
        unfold labelStep
        by_cases hb : inBounds (freqF a)
        · simp only [if_pos hb]
          exact if_neg hne
        · simp only [if_neg hb]
      rw [hkeep]

theorem labelFold_sums_isSome (hp : Bool) (m : ℕ) :
    ∀ (l : List ℕ) (st : (ℕ → RRec) × (ℕ → Option ℝ) × ℕ),
      (∀ k, (st.2.1 k).isSome) →
      ∀ k, ((l.foldl (labelStep hp m) st).2.1 k).isSome := by
  intro l
  induction l with
  | nil => intro st h k; exact h k
  | cons a t ih =>
    intro st h k
    rw [List.foldl_cons]
    refine ih _ (fun k' => ?_) k
    show ((labelStep hp m st a).2.1 k').isSome
    unfold labelStep
    by_cases hb : inBounds (freqF a)
    · simp only [if_pos hb]
      by_cases ha : ((st.1 a).abs).isSome
      · simp only [if_pos ha]
        by_cases hk : k' = st.2.2
        · simp only [if_pos hk]
          exact addD_isSome (h _) ha
        · simp only [if_neg hk]
          exact h k'
      · simp only [if_neg ha]
        exact h k'
    · simp only [if_neg hb]
      exact h k'

/-- C8: when high-pass mode is on, every bin of the labelling loop whose
physical frequency lies strictly within the `±0.25*mode` band has its
magnitude, real and imaginary components forced to zero while the frequency
field carries the (unsuppressed) frequency label; bins outside the band,
and every bin when high-pass mode is off, keep their magnitude, real and
imaginary components, the frequency field being set by the labelling for
in-bounds bins and untouched otherwise. -/
theorem high_pass_suppression (hp : Bool) (m : ℕ) (hm : m ≤ 6)
    (buf : ℕ → RRec) (sums : ℕ → Option ℝ) (jm : ℕ)
    (h1 : 1 ≤ jm) (h2 : jm ≤ DIM_RAD + 1) :
    (hp = true → inBand m (freqF jm) →
      ((labelLoop hp m buf sums).1 jm).abs = some 0 ∧
      ((labelLoop hp m buf sums).1 jm).real = some 0 ∧
      ((labelLoop hp m buf sums).1 jm).imag = some 0 ∧
      ((labelLoop hp m buf sums).1 jm).freq = some ((freqF jm : ℝ))) ∧
    ((hp = false ∨ ¬ inBand m (freqF jm)) →
      ((labelLoop hp m buf sums).1 jm).abs = (buf jm).abs ∧
      ((labelLoop hp m buf sums).1 jm).real = (buf jm).real ∧
      ((labelLoop hp m buf sums).1 jm).imag = (buf jm).imag ∧
      (inBounds (freqF jm) →
        ((labelLoop hp m buf sums).1 jm).freq = some ((freqF jm : ℝ))) ∧
      (¬ inBounds (freqF jm) →
        ((labelLoop hp m buf sums).1 jm).freq = (buf jm).freq)) := by
  have hbuf : (labelLoop hp m buf sums).1 jm = labelBin hp m (buf jm) jm := by
    rw [labelLoop_eq]
    exact labelFold_buf_mem hp m jmList (buf, sums, 0) jm
      (mem_jmList.mpr ⟨h1, h2⟩) jmList_nodup
  constructor
  · intro hhp hband
    have hmq : (m : ℚ) ≤ 6 := by exact_mod_cast hm
    have hfb : inBounds (freqF jm) := by
      constructor
      · unfold FREQ_START
        have := hband.2
        nlinarith
      · unfold FREQ_END
        have := hband.1
        nlinarith
    rw [hbuf]
    unfold labelBin
    simp only [if_pos hfb, if_pos (And.intro hhp hband)]
    exact ⟨trivial, trivial, trivial, trivial⟩
  · intro hoff
    have hcond : ¬ (hp = true ∧ inBand m (freqF jm)) := by
      rcases hoff with h | h
      · intro hc; rw [h] at hc; exact Bool.false_ne_true hc.1
      · intro hc; exact h hc.2
    rw [hbuf]
    unfold labelBin
    by_cases hfb : inBounds (freqF jm)
    · simp only [if_pos hfb, if_neg hcond]
      exact ⟨trivial, trivial, trivial, fun _ => trivial, fun hc => absurd hfb hc⟩
    · simp only [if_neg hfb]
      exact ⟨trivial, trivial, trivial, fun hc => absurd hc hfb, fun _ => trivial⟩

/-- C8 witness: mode 2 with high-pass on zeroes the zero-frequency slot
1025; with high-pass off the out-of-bounds slot 824 keeps its frequency
field. -/
theorem high_pass_suppression_witness :
    ((labelLoop true 2 bufW resetSums).1 1025).abs = some 0 ∧
    ((labelLoop false 2 bufW resetSums).1 824).freq = (bufW 824).freq :=
  ⟨((high_pass_suppression true 2 (by decide) bufW resetSums 1025
      (by decide) (by decide)).1 rfl
      (by norm_num [inBand, freqF, STEP_P, DIM_RAD])).1,
   (((high_pass_suppression false 2 (by decide) bufW resetSums 824
      (by decide) (by decide)).2 (Or.inl rfl)).2.2.2.2
      (by norm_num [inBounds, freqF, STEP_P, DIM_RAD, FREQ_START, FREQ_END]))⟩

/-- C10: the summed-spectrum accumulation is NaN-guarded, so starting from
the per-file zero reset every accumulator entry of the mode row stays
non-NaN through the whole labelling loop. -/
theorem fft_sum_non_nan (hp : Bool) (m : ℕ) (buf : ℕ → RRec)
    (sums : ℕ → Option ℝ) (h : ∀ k, (sums k).isSome) :
    (∀ k, (resetSums k).isSome) ∧
    (∀ k, ((labelLoop hp m buf sums).2.1 k).isSome) := by
  refine ⟨fun _ => rfl, fun k => ?_⟩
  rw [labelLoop_eq]
  exact labelFold_sums_isSome hp m jmList (buf, sums, 0) h k

/-- C10 witness: a concrete accumulator entry after a concrete run starting
from the reset row. -/
theorem fft_sum_non_nan_witness :
    ((labelLoop false 0 bufW resetSums).2.1 7).isSome :=
  (fft_sum_non_nan false 0 bufW resetSums (fun _ => rfl)).2 7

theorem mem_winList {i : ℤ} : i ∈ winList ↔ 824 ≤ i ∧ i ≤ 1226 := by
  constructor
  · intro hi
    have hi2 : i ∈ (List.range 403).map (fun k : ℕ => 824 + (k : ℤ)) := hi
    obtain ⟨k, hk, he⟩ := List.mem_map.mp hi2
    have hk2 : k < 403 := List.mem_range.mp hk
    omega
  · intro h
    show i ∈ (List.range 403).map (fun k : ℕ => 824 + (k : ℤ))
    refine List.mem_map.mpr ⟨(i - 824).toNat, List.mem_range.mpr ?_, ?_⟩
    · omega
    · show 824 + (((i - 824).toNat : ℤ)) = i
      omega

theorem scanStep_none (fft : ℤ → FRecQ) (st : Bool × ℤ × ℚ) (a : ℤ)
    (h : (fft a).abs = none) : scanStep fft st a = st := by
  simp [scanStep, h]

theorem scanStep_nan_some (fft : ℤ → FRecQ) (st : Bool × ℤ × ℚ) (a : ℤ)
    (h : ((fft a).abs).isSome) : (scanStep fft st a).1 = false := by
  obtain ⟨v, hv⟩ := Option.isSome_iff_exists.mp h
  by_cases hc : st.2.2 < v ∧ a ≠ 1025
  · simp [scanStep, hv, hc]
  · simp [scanStep, hv, hc]

theorem scanStep_nan_keeps_false (fft : ℤ → FRecQ) (st : Bool × ℤ × ℚ)
    (a : ℤ) (h : st.1 = false) : (scanStep fft st a).1 = false := by
  cases hv : (fft a).abs with
  | none => simp [scanStep, hv, h]
  | some v =>
    by_cases hc : st.2.2 < v ∧ a ≠ 1025
    · simp [scanStep, hv, hc]
    · simp [scanStep, hv, hc]

theorem scanStep_idx (fft : ℤ → FRecQ) (st : Bool × ℤ × ℚ) (a : ℤ) :
    (scanStep fft st a).2.1 = st.2.1 ∨ (scanStep fft st a).2.1 = a := by
  cases hv : (fft a).abs with
  | none => left; simp [scanStep, hv]
  | some v =>
    by_cases hc : st.2.2 < v ∧ a ≠ 1025
    · right; simp [scanStep, hv, hc]
    · left; simp [scanStep, hv, hc]

theorem scanStep_amax (fft : ℤ → FRecQ) (st : Bool × ℤ × ℚ) (a : ℤ) :
    (scanStep fft st a).2.2 = st.2.2 ∨ (scanStep fft st a).2.1 = a := by
  cases hv : (fft a).abs with
  | none => left; simp [scanStep, hv]
  | some v =>
    by_cases hc : st.2.2 < v ∧ a ≠ 1025
    · right; simp [scanStep, hv, hc]
    · left; simp [scanStep, hv, hc]

theorem scanFold_nan_false (fft : ℤ → FRecQ) :
    ∀ (l : List ℤ) (st : Bool × ℤ × ℚ), st.1 = false →
      (l.foldl (scanStep fft) st).1 = false := by
  intro l
  induction l with
  | nil => intro st h; exact h
  | cons a t ih =>
    intro st h
    rw [List.foldl_cons]
    exact ih _ (scanStep_nan_keeps_false fft st a h)

theorem scanFold_valid_clears_nan (fft : ℤ → FRecQ) :
    ∀ (l : List ℤ) (st : Bool × ℤ × ℚ) (i0 : ℤ), i0 ∈ l →
      ((fft i0).abs).isSome → (l.foldl (scanStep fft) st).1 = false := by
  intro l
  induction l with
  | nil => intro st i0 hmem; exact absurd hmem (List.not_mem_nil i0)
  | cons a t ih =>
    intro st i0 hmem hsome
    rw [List.foldl_cons]
    rcases List.mem_cons.mp hmem with heq | htail
    · subst heq
      exact scanFold_nan_false fft t _ (scanStep_nan_some fft st i0 hsome)
    · exact ih _ i0 htail hsome

theorem scanFold_idx_nonneg (fft : ℤ → FRecQ) :
    ∀ (l : List ℤ) (st : Bool × ℤ × ℚ), (∀ i ∈ l, (0:ℤ) ≤ i) →
      0 ≤ st.2.1 → 0 ≤ (l.foldl (scanStep fft) st).2.1 := by
  intro l
  induction l with
  | nil => intro st _ h; exact h
  | cons a t ih =>
    intro st hpos h
    rw [List.foldl_cons]
    refine ih _ (fun i hi => hpos i (List.mem_cons_of_mem a hi)) ?_
    rcases scanStep_idx fft st a with he | he
    · rw [he]; exact h
    · rw [he]; exact hpos a (List.mem_cons_self a t)

theorem scanStep_J (fft : ℤ → FRecQ) (st : Bool × ℤ × ℚ) (a : ℤ)
    (ha : (0:ℤ) ≤ a) (hJ : 0 ≤ st.2.1 ∨ st.2.2 = -255) :
    0 ≤ (scanStep fft st a).2.1 ∨ (scanStep fft st a).2.2 = -255 := by
  rcases scanStep_amax fft st a with he | he
  · rcases hJ with hidx | hamax
    · rcases scanStep_idx fft st a with hi | hi
      · left; rw [hi]; exact hidx
      · left; rw [hi]; exact ha
    · right; rw [he]; exact hamax
  · left; rw [he]; exact ha

theorem scanFold_hit (fft : ℤ → FRecQ) :
    ∀ (l : List ℤ) (st : Bool × ℤ × ℚ) (i0 : ℤ) (v : ℚ), i0 ∈ l →
      (∀ i ∈ l, (0:ℤ) ≤ i) → i0 ≠ 1025 → (fft i0).abs = some v →
      -255 < v → (0 ≤ st.2.1 ∨ st.2.2 = -255) →
      0 ≤ (l.foldl (scanStep fft) st).2.1 := by
  intro l
  induction l with
  | nil => intro st i0 v hmem; exact absurd hmem (List.not_mem_nil i0)
  | cons a t ih =>
    intro st i0 v hmem hpos h1025 habs hv hJ
    rw [List.foldl_cons]
    rcases List.mem_cons.mp hmem with heq | htail
    · subst heq
      refine scanFold_idx_nonneg fft t _
        (fun i hi => hpos i (List.mem_cons_of_mem i0 hi)) ?_
      rcases hJ with hidx | hamax
      · rcases scanStep_idx fft st i0 with hi | hi
        · rw [hi]; exact hidx
        · rw [hi]; exact hpos i0 (List.mem_cons_self i0 t)
      · have htrig : st.2.2 < v ∧ i0 ≠ 1025 := ⟨by rw [hamax]; exact hv, h1025⟩
        have : (scanStep fft st i0).2.1 = i0 := by
          simp [scanStep, habs, htrig]
        rw [this]
        exact hpos i0 (List.mem_cons_self i0 t)
    · exact ih _ i0 v htail (fun i hi => hpos i (List.mem_cons_of_mem a hi))
        h1025 habs hv
        (scanStep_J fft st a (hpos a (List.mem_cons_self a t)) hJ)

theorem scanFold_all_none (fft : ℤ → FRecQ) :
    ∀ (l : List ℤ) (st : Bool × ℤ × ℚ), (∀ i ∈ l, (fft i).abs = none) →
      l.foldl (scanStep fft) st = st := by
  intro l
  induction l with
  | nil => intro st _; rfl
  | cons a t ih =>
    intro st h
    rw [List.foldl_cons, scanStep_none fft st a (h a (List.mem_cons_self a t)),
      ih _ (fun i hi => h i (List.mem_cons_of_mem a hi))]

theorem pitchScan_all_nan (fft : ℤ → FRecQ)
    (h : ∀ i : ℤ, 824 ≤ i → i ≤ 1226 → (fft i).abs = none) :
    pitchScan fft = (true, -1, -255) :=
  scanFold_all_none fft winList _ (fun i hi => by
    have := mem_winList.mp hi
    exact h i this.1 this.2)

theorem pitch_phase_nan (fft : ℤ → FRecQ) (mode : ℕ) (res : ResultPa)
    (h : (pitchScan fft).1 = true) :
    pitch_phase fft mode res = (PITCH_RET_NAN, res) := by
  unfold pitch_phase
  rw [if_pos h]

theorem pitch_phase_nomax (fft : ℤ → FRecQ) (mode : ℕ) (res : ResultPa)
    (h1 : (pitchScan fft).1 = false) (h2 : (pitchScan fft).2.1 < 0) :
    pitch_phase fft mode res = (0, res) := by
  unfold pitch_phase
  rw [if_neg (by rw [h1]; exact Bool.false_ne_true), if_pos h2]

theorem pitch_phase_ok (fft : ℤ → FRecQ) (mode : ℕ) (res : ResultPa)
    (h1 : (pitchScan fft).1 = false) (h2 : 0 ≤ (pitchScan fft).2.1) :
    pitch_phase fft mode res =
      (PITCH_RET_OK,
        { res with
          amp := (fft (pitchScan fft).2.1).abs
          freq := (fft (pitchScan fft).2.1).freq
          index := (pitchScan fft).2.1
          pa := Option.map (paOf mode) ((fft (pitchScan fft).2.1).freq)
          phase := phaseD mode ((fft (pitchScan fft).2.1).real)
            ((fft (pitchScan fft).2.1).imag) }) := by
  unfold pitch_phase
  rw [if_neg (by rw [h1]; exact Bool.false_ne_true), if_neg (not_lt.mpr h2)]

theorem abs_paOf_le (m : ℕ) (f : ℚ) : |paOf m f| ≤ 90 := by
  have harg0 : 0 ≤ Complex.arg ⟨(f : ℝ), ((m : ℕ) : ℝ)⟩ :=
    Complex.arg_nonneg_iff.mpr (by
      show (0 : ℝ) ≤ ((m : ℕ) : ℝ)
      positivity)
  have hargpi : Complex.arg ⟨(f : ℝ), ((m : ℕ) : ℝ)⟩ ≤ Real.pi :=
    Complex.arg_le_pi _
  have hπ : (0 : ℝ) < Real.pi := Real.pi_pos
  have hscale : (0 : ℝ) < 1 / GR_RAD := by
    unfold GR_RAD
    positivity
  have hA : paOf m f =
      (if 90 < |atan2 ((m : ℕ) : ℝ) ((f : ℝ)) * (1 / GR_RAD)| then
        atan2 ((m : ℕ) : ℝ) ((f : ℝ)) * (1 / GR_RAD) - 180
      else atan2 ((m : ℕ) : ℝ) ((f : ℝ)) * (1 / GR_RAD)) := rfl
  set A := atan2 ((m : ℕ) : ℝ) ((f : ℝ)) * (1 / GR_RAD) with hAdef
  have hA0 : 0 ≤ A := by
    rw [hAdef]
    exact mul_nonneg harg0 hscale.le
  have hA180 : A ≤ 180 := by
    rw [hAdef]
    show Complex.arg ⟨(f : ℝ), ((m : ℕ) : ℝ)⟩ * (1 / GR_RAD) ≤ 180
    unfold GR_RAD
    rw [one_div_div]
    calc Complex.arg ⟨(f : ℝ), ((m : ℕ) : ℝ)⟩ * (180 / Real.pi)
        ≤ Real.pi * (180 / Real.pi) :=
          mul_le_mul_of_nonneg_right hargpi (by positivity)
      _ = 180 := by field_simp
  rw [hA]
  by_cases hc : 90 < |A|
  · rw [if_pos hc]
    rw [abs_of_nonneg hA0] at hc
    rw [abs_le]
    constructor <;> linarith
  · rw [if_neg hc]
    exact not_lt.mp hc

/-- C1: a window whose only non-NaN magnitude sits at the excluded
mid-frequency slot 1025 makes the maximum scan finish with index -1 while
the nan flag is cleared; `pitch_phase` then returns 0, which is
`PITCH_RET_NAN` and not the `PITCH_RET_ERR` the claim (and the function's
own return-value documentation) prescribes for this error condition. -/
theorem pitch_no_max_returns_nan_code :
    (∃ i : ℤ, 824 ≤ i ∧ i ≤ 1226 ∧ ((c1fft i).abs).isSome) ∧
    pitchScan c1fft = (false, -1, -255) ∧
    (pitch_phase c1fft 2 res0).1 = PITCH_RET_NAN ∧
    (pitch_phase c1fft 2 res0).1 ≠ PITCH_RET_ERR := by
  have hscan : pitchScan c1fft = (false, -1, -255) := by decide
  have hpp : pitch_phase c1fft 2 res0 = (0, res0) :=
    pitch_phase_nomax c1fft 2 res0 (by rw [hscan]) (by rw [hscan]; decide)
  refine ⟨⟨1025, by decide, by decide, rfl⟩, hscan, ?_, ?_⟩
  · rw [hpp]; rfl
  · rw [hpp]; decide

/-- C4 counterexample: the claim "at least one valid magnitude bin in the
window implies the Success outcome" fails when the only valid bin is the
excluded mid-frequency slot 1025: `pitch_phase` returns 0, not
`PITCH_RET_OK`. -/
theorem pitch_success_claim_counterexample :
    (∃ i : ℤ, 824 ≤ i ∧ i ≤ 1226 ∧ ((c4fft i).abs).isSome) ∧
    (pitch_phase c4fft 2 res0).1 ≠ PITCH_RET_OK := by
  have hscan : pitchScan c4fft = (false, -1, -255) := by decide
  have hpp : pitch_phase c4fft 2 res0 = (0, res0) :=
    pitch_phase_nomax c4fft 2 res0 (by rw [hscan]) (by rw [hscan]; decide)
  refine ⟨⟨1025, by decide, by decide, rfl⟩, ?_⟩
  rw [hpp]; decide

/-- C4 (amended): for every window holding at least one non-NaN magnitude
at an index other than the excluded mid slot 1025 and above the -255
search floor (every pipeline magnitude, being nonnegative, qualifies),
`pitch_phase` returns the Success outcome; when the winning bin's
frequency field holds a number the stored pitch angle is its wrapped
`atan2` value of magnitude at most 90 degrees, and when that frequency
field is NaN (possible only at the never-labelled window edge slots 824
and 1226, which hold indeterminate memory) the stored pitch angle is
NaN. -/
theorem pitch_success_amended (fft : ℤ → FRecQ) (m : ℕ) (res : ResultPa)
    (h : ∃ (i : ℤ) (v : ℚ), 824 ≤ i ∧ i ≤ 1226 ∧ i ≠ 1025 ∧
      (fft i).abs = some v ∧ -255 < v) :
    (pitch_phase fft m res).1 = PITCH_RET_OK ∧
    (∀ f : ℚ, (fft (pitchScan fft).2.1).freq = some f →
      ((pitch_phase fft m res).2).pa = some (paOf m f) ∧ |paOf m f| ≤ 90) ∧
    ((fft (pitchScan fft).2.1).freq = none →
      ((pitch_phase fft m res).2).pa = none) := by
  obtain ⟨i, v, hi1, hi2, hi3, habs, hv⟩ := h
  have hmem : i ∈ winList := mem_winList.mpr ⟨hi1, hi2⟩
  have hpos : ∀ j ∈ winList, (0:ℤ) ≤ j := fun j hj => by
    have := mem_winList.mp hj; omega
  have hnan : (pitchScan fft).1 = false :=
    scanFold_valid_clears_nan fft winList _ i hmem (by rw [habs]; rfl)
  have hidx : 0 ≤ (pitchScan fft).2.1 :=
    scanFold_hit fft winList _ i v hmem hpos hi3 habs hv (Or.inr rfl)
  have hok := pitch_phase_ok fft m res hnan hidx
  have hpa : ((pitch_phase fft m res).2).pa =
      Option.map (paOf m) ((fft (pitchScan fft).2.1).freq) := by rw [hok]
  refine ⟨by rw [hok], fun f hf => ?_, fun hnone => ?_⟩
  · rw [hpa, hf]
    exact ⟨rfl, abs_paOf_le m f⟩
  · rw [hpa, hnone]
    rfl

/-- C4 witness: a window with one valid off-mid bin, whose frequency field
is the number 2, at concrete inputs. -/
theorem pitch_success_amended_witness :
    (pitch_phase c4good 2 res0).1 = PITCH_RET_OK ∧
    (∀ f : ℚ, (c4good (pitchScan c4good).2.1).freq = some f →
      ((pitch_phase c4good 2 res0).2).pa = some (paOf 2 f) ∧
        |paOf 2 f| ≤ 90) ∧
    ((c4good (pitchScan c4good).2.1).freq = none →
      ((pitch_phase c4good 2 res0).2).pa = none) :=
  pitch_success_amended c4good 2 res0
    ⟨900, 3, by decide, by decide, by decide, rfl, by decide⟩

/-- C5: for an all-NaN window `pitch_phase` returns the NaN outcome (not
Error), and the caller's recovery sets every statistic of the result record
to NaN without invoking `snr` or `fwhm`. -/
theorem pitch_all_nan_recovery (fft : ℤ → FRecQ) (mode : ℕ) (res : ResultPa)
    (h : ∀ i : ℤ, 824 ≤ i → i ≤ 1226 → (fft i).abs = none) :
    (pitch_phase fft mode res).1 = PITCH_RET_NAN ∧
    PITCH_RET_NAN ≠ PITCH_RET_ERR ∧
    processRadius fft mode res = (nanResult, false, false) := by
  have hscan : pitchScan fft = (true, -1, -255) := pitchScan_all_nan fft h
  have hpp : pitch_phase fft mode res = (PITCH_RET_NAN, res) :=
    pitch_phase_nan fft mode res (by rw [hscan])
  refine ⟨by rw [hpp], by decide, ?_⟩
  unfold processRadius
  rw [hpp]
  simp [PITCH_RET_NAN, PITCH_RET_ERR]

/-- C5 witness: the all-NaN window at concrete inputs. -/
theorem pitch_all_nan_recovery_witness :
    (pitch_phase c5fft 1 res0).1 = PITCH_RET_NAN ∧
    PITCH_RET_NAN ≠ PITCH_RET_ERR ∧
    processRadius c5fft 1 res0 = (nanResult, false, false) :=
  pitch_all_nan_recovery c5fft 1 res0 (fun _ _ _ => rfl)

/-- C7: `snr` takes the mean and population standard deviation over the
valid window magnitudes excluding slot 1025; with no valid bin it returns
Error; with sigma at or below 1e-10 it returns Error having stored only the
mean; otherwise it stores `(amp - mean)/sigma`, returning the NaN outcome
instead of Error exactly when that value is NaN. -/
theorem snr_spec (fft : ℤ → FRecQ) (res : ResultPa) :
    (validVals fft = [] → snr fft res = (PITCH_RET_ERR, res)) ∧
    (validVals fft ≠ [] →
      (snrSigma fft ≤ 1e-10 →
        snr fft res = (PITCH_RET_ERR,
          { res with avg_amp := some (snrMean fft) })) ∧
      (¬ snrSigma fft ≤ 1e-10 →
        (res.amp = none →
          snr fft res = (PITCH_RET_NAN,
            { res with avg_amp := some (snrMean fft), snr := none })) ∧
        (∀ a : ℚ, res.amp = some a →
          snr fft res = (PITCH_RET_OK,
            { res with
              avg_amp := some (snrMean fft)
              snr := some (((a : ℝ) - ((snrMean fft : ℝ))) /
                snrSigma fft) })))) := by
  constructor
  · intro h
    have hc : (((validVals fft).length : ℚ)) < 1 / 2 := by rw [h]; norm_num
    simp only [snr]
    rw [if_pos hc]
  · intro h1
    have hc : ¬ ((((validVals fft).length : ℚ)) < 1 / 2) := by
      have hpos : 0 < (validVals fft).length := List.length_pos.mpr h1
      have h1q : (1:ℚ) ≤ ((validVals fft).length : ℚ) := by exact_mod_cast hpos
      linarith
    refine ⟨fun h2 => ?_, fun h2 => ⟨fun hamp => ?_, fun a hamp => ?_⟩⟩
    · simp only [snr]
      rw [if_neg hc, if_pos h2]
    · simp only [snr]
      rw [if_neg hc, if_neg h2, hamp]
      rfl
    · simp only [snr]
      rw [if_neg hc, if_neg h2, hamp]
      rfl

/-- C7 witness: two valid magnitudes 0 and 2 give mean 1 and sigma 1, and
a stored maximum amplitude 2 yields the Success outcome with SNR 1. -/
theorem snr_spec_witness :
    snr c7fft c7res = (PITCH_RET_OK,
      { c7res with
        avg_amp := some (snrMean c7fft)
        snr := some (((2 : ℝ) - ((snrMean c7fft : ℝ))) / snrSigma c7fft) }) := by
  have hvv : validVals c7fft = [0, 2] := by decide
  have hne : validVals c7fft ≠ [] := by rw [hvv]; decide
  have hm : snrMean c7fft = 1 := by
    unfold snrMean
    rw [hvv]
    norm_num
  have hq : ((((validVals c7fft).map
      (fun x => (x - snrMean c7fft) ^ 2)).sum /
      ((validVals c7fft).length : ℚ)) : ℚ) = 1 := by
    rw [hvv, hm]
    norm_num
  have hsig : snrSigma c7fft = 1 := by
    unfold snrSigma
    rw [hq]
    norm_num
  exact (((snr_spec c7fft c7res).2 hne).2 (by rw [hsig]; norm_num)).2 2 rfl

theorem scanUp_found (fft : ℤ → FRecQ) (limit : Option ℚ) :
    ∀ (fuel : ℕ) (i j : ℤ), i ≤ j → j ≤ 1226 →
      fwhmCross fft limit j →
      (∀ t : ℤ, i ≤ t → t < j → ¬ fwhmCross fft limit t) →
      (1227 - i).toNat ≤ fuel →
      scanUp fft limit fuel i = j - 1 := by
  intro fuel
  induction fuel with
  | zero => intro i j h1 h2 _ _ hf; exact absurd hf (by omega)
  | succ f ih =>
    intro i j h1 h2 hcross hmin hf
    unfold scanUp
    rw [if_neg (by omega : ¬ (1226:ℤ) < i)]
    by_cases hc : i ≠ 1025 ∧ ltD ((fft i).abs) limit = true
    · rw [if_pos hc]
      have hij : i = j := by
        by_contra hne
        exact hmin i le_rfl (by omega) hc
      rw [hij]
    · rw [if_neg hc]
      have hij : i < j := by
        rcases lt_or_eq_of_le h1 with h | h
        · exact h
        · exact absurd (h ▸ hcross) hc
      exact ih (i + 1) j (by omega) h2 hcross
        (fun t ht1 ht2 => hmin t (by omega) ht2) (by omega)

theorem scanUp_none (fft : ℤ → FRecQ) (limit : Option ℚ) :
    ∀ (fuel : ℕ) (i : ℤ),
      (∀ t : ℤ, i ≤ t → t ≤ 1226 → ¬ fwhmCross fft limit t) →
      scanUp fft limit fuel i = 0 := by
  intro fuel
  induction fuel with
  | zero => intro i _; rfl
  | succ f ih =>
    intro i h
    unfold scanUp
    by_cases hgt : (1226:ℤ) < i
    · rw [if_pos hgt]
    · rw [if_neg hgt, if_neg (h i le_rfl (by omega))]
      exact ih (i + 1) (fun t ht1 ht2 => h t (by omega) ht2)

theorem scanDown_found (fft : ℤ → FRecQ) (limit : Option ℚ) :
    ∀ (fuel : ℕ) (i j : ℤ), j ≤ i → 824 ≤ j →
      fwhmCross fft limit j →
      (∀ t : ℤ, j < t → t ≤ i → ¬ fwhmCross fft limit t) →
      (i - 823).toNat ≤ fuel →
      scanDown fft limit fuel i = j + 1 := by
  intro fuel
  induction fuel with
  | zero => intro i j h1 h2 _ _ hf; exact absurd hf (by omega)
  | succ f ih =>
    intro i j h1 h2 hcross hmin hf
    unfold scanDown
    rw [if_neg (by omega : ¬ i < (824:ℤ))]
    by_cases hc : i ≠ 1025 ∧ ltD ((fft i).abs) limit = true
    · rw [if_pos hc]
      have hij : i = j := by
        by_contra hne
        exact hmin i (by omega) le_rfl hc
      rw [hij]
    · rw [if_neg hc]
      have hij : j < i := by
        rcases lt_or_eq_of_le h1 with h | h
        · exact h
        · exact absurd (h ▸ hcross) hc
      exact ih (i - 1) j (by omega) h2 hcross
        (fun t ht1 ht2 => hmin t ht1 (by omega)) (by omega)

theorem scanDown_none (fft : ℤ → FRecQ) (limit : Option ℚ) :
    ∀ (fuel : ℕ) (i : ℤ),
      (∀ t : ℤ, 824 ≤ t → t ≤ i → ¬ fwhmCross fft limit t) →
      scanDown fft limit fuel i = 0 := by
  intro fuel
  induction fuel with
  | zero => intro i _; rfl
  | succ f ih =>
    intro i h
    unfold scanDown
    by_cases hlt : i < (824:ℤ)
    · rw [if_pos hlt]
    · rw [if_neg hlt, if_neg (h i (by omega) le_rfl)]
      exact ih (i - 1) (fun t ht1 ht2 => h t ht1 (by omega))

/-- C6: `fwhm` errors when the stored maximum index is outside the window;
otherwise it scans outward from the maximum in both directions, skipping
slot 1025, until the magnitude drops below `amp - (amp - avg)/2`, storing
the count of bins between and including the bins adjacent to the two
crossings; it errors when either outward scan exhausts the window. -/
theorem fwhm_spec (fft : ℤ → FRecQ) (res : ResultPa) :
    ((res.index < LO_INDEX ∨ HI_INDEX < res.index) →
      fwhm fft res = (PITCH_RET_ERR, res)) ∧
    (LO_INDEX ≤ res.index → res.index ≤ HI_INDEX →
      (∀ jR jL : ℤ,
        res.index < jR → jR ≤ 1226 →
        fwhmCross fft (limitOf res.amp res.avg_amp) jR →
        (∀ t : ℤ, res.index < t → t < jR →
          ¬ fwhmCross fft (limitOf res.amp res.avg_amp) t) →
        824 ≤ jL → jL < res.index →
        fwhmCross fft (limitOf res.amp res.avg_amp) jL →
        (∀ t : ℤ, jL < t → t < res.index →
          ¬ fwhmCross fft (limitOf res.amp res.avg_amp) t) →
        fwhm fft res = (PITCH_RET_OK,
          { res with fwhm := some ((((jR - 1) - (jL + 1) + 1 : ℤ) : ℚ)) })) ∧
      ((∀ t : ℤ, res.index < t → t ≤ 1226 →
          ¬ fwhmCross fft (limitOf res.amp res.avg_amp) t) →
        fwhm fft res = (PITCH_RET_ERR, res)) ∧
      ((∀ t : ℤ, 824 ≤ t → t < res.index →
          ¬ fwhmCross fft (limitOf res.amp res.avg_amp) t) →
        fwhm fft res = (PITCH_RET_ERR, res))) := by
  have hLO : LO_INDEX = 824 := rfl
  have hHI : HI_INDEX = 1226 := rfl
  constructor
  · intro h
    simp only [fwhm]
    rw [if_pos h]
  · intro h1 h2
    have hout : ¬ (res.index < LO_INDEX ∨ HI_INDEX < res.index) := by omega
    refine ⟨fun jR jL hr1 hr2 hrc hrm hl1 hl2 hlc hlm => ?_,
      fun hnone => ?_, fun hnone => ?_⟩
    · have hup : scanUp fft (limitOf res.amp res.avg_amp) 500
          (res.index + 1) = jR - 1 :=
        scanUp_found fft _ 500 (res.index + 1) jR (by omega) hr2 hrc
          (fun t ht1 ht2 => hrm t (by omega) ht2) (by omega)
      have hdn : scanDown fft (limitOf res.amp res.avg_amp) 500
          (res.index - 1) = jL + 1 :=
        scanDown_found fft _ 500 (res.index - 1) jL (by omega) hl1 hlc
          (fun t ht1 ht2 => hlm t ht1 (by omega)) (by omega)
      simp only [fwhm]
      rw [if_neg hout, hup, hdn,
        if_neg (by omega : ¬ (jR - 1 = 0 ∨ jL + 1 = 0))]
      rfl
    · have hup : scanUp fft (limitOf res.amp res.avg_amp) 500
          (res.index + 1) = 0 :=
        scanUp_none fft _ 500 (res.index + 1)
          (fun t ht1 ht2 => hnone t (by omega) ht2)
      simp only [fwhm]
      rw [if_neg hout, hup, if_pos (Or.inl rfl)]
    · have hdn : scanDown fft (limitOf res.amp res.avg_amp) 500
          (res.index - 1) = 0 :=
        scanDown_none fft _ 500 (res.index - 1)
          (fun t ht1 ht2 => hnone t ht1 (by omega))
      simp only [fwhm]
      rw [if_neg hout, hdn, if_pos (Or.inr rfl)]

/-- C6 witness: a peak of amplitude 10 at slot 1000 over noise floor 2
(threshold 6), falling to 1 at slots 998 and 1002, has FWHM 3. -/
theorem fwhm_spec_witness :
    fwhm c6fft c6res = (PITCH_RET_OK,
      { c6res with fwhm := some ((((1002 - 1) - (998 + 1) + 1 : ℤ) : ℚ)) }) := by
  have hlim : limitOf c6res.amp c6res.avg_amp = some 6 := by
    show limitOf (some 10) (some 2) = some 6
    norm_num [limitOf]
  have hidx : c6res.index = 1000 := rfl
  refine ((fwhm_spec c6fft c6res).2 (by decide) (by decide)).1 1002 998
    (by rw [hidx]; decide) (by decide) ?_ ?_ (by decide)
    (by rw [hidx]; decide) ?_ ?_
  · exact ⟨by decide, by rw [hlim]; decide⟩
  · intro t ht1 ht2
    rw [hidx] at ht1
    have ht : t = 1001 := by omega
    subst ht
    rw [hlim]
    decide
  · exact ⟨by decide, by rw [hlim]; decide⟩
  · intro t ht1 ht2
    rw [hidx] at ht2
    have ht : t = 999 := by omega
    subst ht
    rw [hlim]
    decide

/-- C2: the fixed-width-annulus cutoff compares the sample's log-radius
against `log_lo`/`log_hi`, which p2dfft.cpp declares (lines 1245-1246) but
never assigns: with identical configured inputs, two different values of
the unassigned pair change whether the very same sample is kept or zeroed,
so no assignment "precomputed from the configured fixed width" governs the
cutoff. -/
theorem fixed_annulus_bounds_unassigned :
    sampleWrite false false false false 10 500 1 0 0 0 0 2 5 0 = 5 ∧
    sampleWrite false false false false 10 500 1 0 0 0 3 2 5 0 = 0 ∧
    (5 : ℚ) ≠ 0 := by decide

end P2DFFT
